import Mathlib

/-!
# Verification of the pi-calcs repository

Shallow embedding of the three programs of the repository
(`pi_chudnovsky.c`, `pi_infseries.c`, `pi_mcarlo.c`) and proofs about them.

Modelling conventions:
* C `double` values that hold integer quantities are modelled as `ℤ`,
  other `double` values as `ℚ`; rounding of `double` arithmetic is abstracted
  (the computations verified here are about the exact formulas the code evaluates).
* Calls into `libm`/`libc` whose result is data (`sqrt`, `rand`, `strtol` on the
  raw argument string) are abstracted as parameters of the embedding.
* Machine counters (`uint_least64_t`) never approach `2 ^ 64` in any run the
  claims quantify over, so they are modelled as `ℕ`; the 32-bit `unsigned` seed
  of `fastrand01`, whose wrap-around is essential, is modelled with `% 2 ^ 32`.
-/

/-! ## pi_chudnovsky.c -/

/-- The `result_flts` struct (`pi_chudnovsky.c` line 33).  The three `pi_flt`
(double) fields always hold integer values, modelled as `ℤ`. -/
@[ext] structure result_flts where
  Pab : ℤ
  Qab : ℤ
  Tab : ℤ
  deriving DecidableEq, Repr

/-- The recursive-case combination of two adjacent triplets
(`pi_chudnovsky.c` lines 81–83):
`P = Pl*Pr`, `Q = Ql*Qr`, `T = Qr*Tl + Pl*Tr`. -/
def chudnovsky_combine (am mb : result_flts) : result_flts :=
  { Pab := am.Pab * mb.Pab
    Qab := am.Qab * mb.Qab
    Tab := mb.Qab * am.Tab + am.Pab * mb.Tab }

/-- `chudnovsky_binarysplit` (`pi_chudnovsky.c` lines 63–87).
The `b - a == 1` base case builds the term triplet at `a`
(`P = Q = 1` when `a = 0`), with `Tab` negated when `a` is odd (`a & 1`);
otherwise the range is split at `m = (a + b) / 2` and the halves are combined.
The C recursion never terminates when `b ≤ a` (callers always pass `a < b`);
that unreachable case is given the junk value `⟨1, 1, 0⟩` for totality. -/
def chudnovsky_binarysplit (a b : ℕ) : result_flts :=
  if h1 : b - a = 1 then
    let Pab : ℤ := if a = 0 then 1 else
      (6 * (a : ℤ) - 5) * (2 * (a : ℤ) - 1) * (6 * (a : ℤ) - 1)
    let Qab : ℤ := if a = 0 then 1 else (a : ℤ) * a * a * 10939058860032000
    let Tab : ℤ := Pab * (545140134 * (a : ℤ) + 13591409)
    { Pab := Pab, Qab := Qab, Tab := if a &&& 1 = 1 then -Tab else Tab }
  else if h0 : b - a = 0 then
    { Pab := 1, Qab := 1, Tab := 0 }
  else
    let m := (a + b) / 2
    chudnovsky_combine (chudnovsky_binarysplit a m) (chudnovsky_binarysplit m b)
termination_by b - a
decreasing_by
  all_goals omega

/-- `digits` (`pi_chudnovsky.c` line 49): the parsed argument is doubled,
`const long digits = strtol(argv[1], NULL, 10) * 2`. -/
def chud_digits (n : ℤ) : ℤ := n * 2

/-- The exit status of `main` in `pi_chudnovsky.c` (lines 43–60) as a function
of the parsed numeric argument, for a run with exactly two `argv` entries:
`EXIT_FAILURE = 1` when `digits < 0` (lines 50–53), else `EXIT_SUCCESS = 0`. -/
def chud_exit_status (n : ℤ) : ℕ := if chud_digits n < 0 then 1 else 0

/-- The `double` literal `14.181647462725477` of `pi_chudnovsky.c` line 56,
as an exact rational (the rounding of the decimal literal to binary is
abstracted; no claim depends on the difference). -/
def chud_term_divisor : ℚ := 14.181647462725477

/-- The upper bound of the evaluated range (`pi_chudnovsky.c` line 56):
`(pi_uint)((pi_flt)digits / 14.181647462725477) + 1`.  The cast of the
nonnegative quotient to `pi_uint` truncates, modelled as `Int.toNat ∘ Int.floor`. -/
def chud_terms_count (n : ℤ) : ℕ :=
  (⌊(chud_digits n : ℚ) / chud_term_divisor⌋).toNat + 1

/-- The integer printed by `pi_chudnovsky.c` line 57–58:
`(pi_uint)((Qab * 426880.0 * sqrt(10005.0 * pow(10.0, digits))) / Tab)`.
The `sqrt(10005 * 10^digits)` value is abstracted as the parameter `s`;
the cast of the nonnegative result truncates, modelled as `Int.floor`. -/
def chud_pi_output (n : ℤ) (s : ℚ) : ℤ :=
  let res := chudnovsky_binarysplit 0 (chud_terms_count n)
  ⌊((res.Qab : ℚ) * 426880 * s) / (res.Tab : ℚ)⌋

/-- Follows the spec's words for the claimed term count: for digit count `D`,
"the number of terms needed is `D/14.181647462725477 + 1` (rounded up)",
i.e. the truncated quotient of `D` itself (not of `digits = 2·D`) plus one. -/
def claimed_terms_count (n : ℤ) : ℕ :=
  (⌊(n : ℚ) / chud_term_divisor⌋).toNat + 1

/-- Follows the spec's words for the printed value, with the term count
corrected to use `2·D`: `Q·426880·sqrt(10005·10^(2D)) / T` truncated, where
`(P, Q, T)` is the triplet returned for the evaluated range and `s` stands for
the square root. -/
def claimed_pi_output (n : ℤ) (s : ℚ) : ℤ :=
  let res := chudnovsky_binarysplit 0 ((⌊(2 * n : ℚ) / chud_term_divisor⌋).toNat + 1)
  ⌊((res.Qab : ℚ) * 426880 * s) / (res.Tab : ℚ)⌋

/-- The triplet of a single series term: the base case of the recursion. -/
def chudnovsky_term (k : ℕ) : result_flts := chudnovsky_binarysplit k (k + 1)

/-- The triplets of the adjacent sub-ranges determined by a list of cut
points `[c₀, c₁, …, cₖ]`: the triplet of `[cᵢ, cᵢ₊₁)` for each `i`. -/
def chudnovsky_segments (cuts : List ℕ) : List result_flts :=
  (cuts.zip cuts.tail).map fun p => chudnovsky_binarysplit p.1 p.2

/-- Pairwise left-to-right combination of a list of triplets.
`⟨1, 1, 0⟩` is a two-sided identity of `chudnovsky_combine`. -/
def chudnovsky_combineList (ts : List result_flts) : result_flts :=
  ts.foldl chudnovsky_combine { Pab := 1, Qab := 1, Tab := 0 }

/-! ## pi_infseries.c -/

/-- The `LOOP_TERMS(expr)` macro (`pi_infseries.c` line 26):
`do expr while(--terms)`.  The body runs, then `terms` is decremented and the
loop continues while it is nonzero: for `terms = N ≥ 1` the body runs exactly
`N` times.  The result pairs the final state with the number of body
executions.  (For `terms = 0` the C loop would decrement through the whole
range of `terms_t`; no claim quantifies over that case, and it is modelled as
a single body execution.) -/
def loopTerms {σ : Type} (body : σ → σ) : ℕ → σ → σ × ℕ
  | 0, s => (body s, 1)
  | 1, s => (body s, 1)
  | n + 2, s =>
    let r := loopTerms body (n + 1) (body s)
    (r.1, r.2 + 1)

/-- `wallis_product` (`pi_infseries.c` lines 168–177).
State `(res, top, bottom)`, initially `(1, 0, 1)`. -/
def wallis_product (terms : ℕ) : ℚ × ℕ :=
  let body := fun (s : ℚ × ℚ × ℚ) =>
    let top := s.2.1 + 2
    let res := s.1 * (top / s.2.2)
    let bottom := s.2.2 + 2
    let res := res * (top / bottom)
    (res, top, bottom)
  let r := loopTerms body terms (1, 0, 1)
  (r.1.1 * 2, r.2)

/-- `vietes_formula` (`pi_infseries.c` lines 179–183).
State `(res, sqr_res)`, initially `(1, 0)`; the `sqrt` call from `libm` is
abstracted as the parameter `sqrtFn`. -/
def vietes_formula (sqrtFn : ℚ → ℚ) (terms : ℕ) : ℚ × ℕ :=
  let body := fun (s : ℚ × ℚ) =>
    let sqr_res := sqrtFn (2 + s.2)
    (s.1 * (2 / sqr_res), sqr_res)
  let r := loopTerms body terms (1, 0)
  (r.1.1 * 2, r.2)

/-- `nilakantha` (`pi_infseries.c` lines 185–192).
State `(res, denom_cnt, sign, denom)`, initially `(3, 2, -1, 0)`. -/
def nilakantha (terms : ℕ) : ℚ × ℕ :=
  let body := fun (s : ℚ × ℚ × ℚ × ℚ) =>
    let denom := s.2.1 * (s.2.1 + 1)
    let denom_cnt := s.2.1 + 2
    let denom := denom * denom_cnt
    let sign := -s.2.2.1
    (s.1 + (4 / denom) * sign, denom_cnt, sign, denom)
  let r := loopTerms body terms (3, 2, -1, 0)
  (r.1.1, r.2)

/-- `madhava_leibniz_formula` (`pi_infseries.c` lines 194–198).
State `(res, sign, denom)`, initially `(1, 1, 1)`. -/
def madhava_leibniz_formula (terms : ℕ) : ℚ × ℕ :=
  let body := fun (s : ℚ × ℚ × ℚ) =>
    let denom := s.2.2 + 2
    let sign := -s.2.1
    (s.1 + (1 / denom) * sign, sign, denom)
  let r := loopTerms body terms (1, 1, 1)
  (r.1.1 * 4, r.2)

/-- `newton_arctan_pi` (`pi_infseries.c` lines 200–204).
State `(res, fract_num, fract_den, fract_tot, den_mult)`,
initially `(1/2, 0, 1, 1, 2)`. -/
def newton_arctan_pi (terms : ℕ) : ℚ × ℕ :=
  let body := fun (s : ℚ × ℚ × ℚ × ℚ × ℚ) =>
    let den_mult := s.2.2.2.2 * 2
    let fract_num := s.2.1 + 2
    let fract_den := s.2.2.1 + 2
    let fract_tot := s.2.2.2.1 * (fract_num / fract_den)
    (s.1 + (1 / den_mult) * fract_tot, fract_num, fract_den, fract_tot, den_mult)
  let r := loopTerms body terms (1/2, 0, 1, 1, 2)
  (r.1.1 * 4, r.2)

/-- The character of a decimal digit value, as `printf` renders it. -/
def digitChar (d : ℕ) : Char := Char.ofNat (48 + d)

/-- `printf("%ld", n)` for a nonnegative `n`: its decimal digit characters. -/
def decRepr (n : ℕ) : List Char :=
  if h : n < 10 then [digitChar n]
  else decRepr (n / 10) ++ [digitChar (n % 10)]
termination_by n
decreasing_by
  omega

/-- `printf("%03ld", m)`: three zero-padded decimal digits.  The only call
site (`pi_infseries.c` line 234) passes `terms % 1000 < 1000`, for which the
minimum-width-3 format always prints exactly these three characters. -/
def pad3 (m : ℕ) : List Char :=
  [digitChar (m / 100 % 10), digitChar (m / 10 % 10), digitChar (m % 10)]

/-- `print_thousands_sepd_num` (`pi_infseries.c` lines 231–236): recurse on
`terms / 1000`, then print a comma and the three zero-padded low digits;
numbers below 1000 are printed plainly. -/
def print_thousands_sepd_num (n : ℕ) : List Char :=
  if h : 1000 ≤ n then print_thousands_sepd_num (n / 1000) ++ ',' :: pad3 (n % 1000)
  else decRepr n
termination_by n
decreasing_by
  omega

/-- Insertion of a comma after every three characters of a little-endian
(units first) digit list: the building block of the spec-side description
"digits grouped in threes from the right, groups separated by commas". -/
def commasEvery3 (l : List Char) : List Char :=
  if l.length ≤ 3 then l
  else l.take 3 ++ ',' :: commasEvery3 (l.drop 3)
termination_by l.length
decreasing_by
  simp only [List.length_drop]
  omega

/-- Spec-side formatter: the decimal digits of `n` grouped in threes from the
right, groups separated by commas. -/
def grouped_decimal (n : ℕ) : List Char :=
  (commasEvery3 (decRepr n).reverse).reverse

/-- The five series names of `series_function_data` (`pi_infseries.c`
lines 97–103). -/
def series_function_names : List String :=
  ["Wallis product", "Viete\x27s formula", "Nilakantha series",
   "Madhava-Leibniz formula (arctan)", "Newton series (arctan)"]

/-- `count_series_functions` (`pi_infseries.c` line 108): the element count
of `series_function_data`. -/
def count_series_functions : ℕ := series_function_names.length

/-- Outcome of the series selection in `main` of `pi_infseries.c`. -/
inductive SeriesChoice where
  | all : SeriesChoice
  | chosen : ℤ → SeriesChoice
  | invalidOption : SeriesChoice
  deriving DecidableEq, Repr

/-- The selector of `main` (`pi_infseries.c` lines 117–125).
`is_all_series = (*argv[1] == 'a')` inspects only the first character of the
argument (the NUL terminator for an empty string); only when it is not `'a'`
is the `strtol` value (abstracted as `strtol_arg1`) consulted, and rejected
unless it lies in `1 .. count_series_functions`. -/
def infseries_select (arg1 : List Char) (strtol_arg1 : ℤ) : SeriesChoice :=
  let is_all_series := arg1.headD (Char.ofNat 0) = 'a'
  if is_all_series then SeriesChoice.all
  else if strtol_arg1 < 1 ∨ strtol_arg1 > (count_series_functions : ℤ) then
    SeriesChoice.invalidOption
  else SeriesChoice.chosen strtol_arg1

/-- The 0-based indices of the series functions run for a selection
(`pi_infseries.c` lines 141–159): one index `given_series_value - 1` for a
single choice, all of `0 .. count_series_functions - 1` for `all`. -/
def series_indices_run (c : SeriesChoice) : List ℕ :=
  match c with
  | SeriesChoice.all => List.range count_series_functions
  | SeriesChoice.chosen v => [(v - 1).toNat]
  | SeriesChoice.invalidOption => []

/-! ## pi_mcarlo.c -/

/-- glibc `RAND_MAX`, the mask applied to the updated seed
(`pi_mcarlo.c` line 110). -/
def RAND_MAX : ℕ := 2147483647

/-- The seed update of `fastrand01` (`pi_mcarlo.c` line 110):
`*seed = 3812762923u * (*seed)` on a 32-bit `unsigned`. -/
def fastrand_seed_update (seed : ℕ) : ℕ := 3812762923 * seed % 2 ^ 32

/-- The integer that determines the value returned by one `fastrand01` call:
the updated seed masked with `RAND_MAX` (the subsequent division by the
constant `RAND_MAX` as `float` is a fixed function of this integer). -/
def fastrand_masked (seed : ℕ) : ℕ := fastrand_seed_update seed &&& RAND_MAX

/-- A run of the pseudo-random update sequence: a stream of seed values
starting at `s0` in which every seed is obtained from its predecessor by
`fastrand_seed_update`. -/
def FastrandTrace (s0 : ℕ) (t : ℕ → ℕ) : Prop :=
  t 0 = s0 ∧ ∀ n, t (n + 1) = fastrand_seed_update (t n)

/-- One iteration of the sampler loop (`pi_mcarlo.c` line 124): the point is
inside when `x² + y² < 1`, and `++counter_arrays[inside]` increments slot 1
(the inside counter) of the pair `(outside, inside)` in that case, else
slot 0 (the outside counter). -/
def mcarlo_point_step (p : ℚ × ℚ) (c : ℕ × ℕ) : ℕ × ℕ :=
  if p.1 * p.1 + p.2 * p.2 < 1 then (c.1, c.2 + 1) else (c.1 + 1, c.2)

/-- `approximate_pi_mcarlo` (`pi_mcarlo.c` lines 112–128): the loop of
`num_iterations` iterations over the counter pair `(outside, inside)`.
The pseudo-random coordinates of iteration `i` (computed from the
time-and-`rand`-derived seed through `fastrand01`) are abstracted as the
stream value `pts i`. -/
def approximate_pi_mcarlo (pts : ℕ → ℚ × ℚ) (num_iterations : ℕ)
    (c : ℕ × ℕ) : ℕ × ℕ :=
  (List.range num_iterations).foldl (fun acc i => mcarlo_point_step (pts i) acc) c

/-- The number of worker threads created by `main` of `pi_mcarlo.c` as the
file actually compiles: the directive on line 73, `#if num_threads > 1`, is
evaluated by the C preprocessor, for which the run-time variable
`num_threads` is an undefined identifier and is replaced by `0`; `0 > 1` is
false, so the thread-creation block (lines 74–75), the join loop (line 84)
and the combine loop (lines 87–90) are all excluded from the build, and no
thread is ever created. -/
def mcarlo_spawned_thread_count (num_threads : ℕ) : ℕ := 0

/-- `main` of `pi_mcarlo.c` (lines 56–104) as the file actually compiles
(see `mcarlo_spawned_thread_count`): the zero-initialised result slots, the
sampler run by the main thread against the last slot, and the totals printed,
which are just that one slot since the combine loop is compiled out.
`pts i` is the abstracted random-point stream for slot `i`. -/
def mcarlo_main (num_threads points_per_thread : ℕ)
    (pts : ℕ → ℕ → ℚ × ℚ) : ℕ × ℕ :=
  let thread_results : ℕ → ℕ × ℕ := fun _ => (0, 0)
  let last_slot := num_threads - 1
  let thread_results : ℕ → ℕ × ℕ := fun i =>
    if i = last_slot then
      approximate_pi_mcarlo (pts last_slot) points_per_thread (thread_results last_slot)
    else thread_results i
  thread_results last_slot

/-- The orchestration claim C1 (and the spec) describe for `main` of
`pi_mcarlo.c`: every one of the `num_threads` slots receives a sampler run of
`points_per_thread` points, and the reported totals are the componentwise sum
over all slots. -/
def mcarlo_main_intended (num_threads points_per_thread : ℕ)
    (pts : ℕ → ℕ → ℚ × ℚ) : ℕ × ℕ :=
  let slot := fun i => approximate_pi_mcarlo (pts i) points_per_thread (0, 0)
  ((List.range num_threads).map slot).foldl
    (fun acc r => (acc.1 + r.1, acc.2 + r.2)) (0, 0)

/-! ## Theorems: pi_chudnovsky.c -/

/-- C3: for `a < b`, `chudnovsky_binarysplit` returns, in the base case
`b - a = 1`, `P = (6a-5)(2a-1)(6a-1)` and `Q = a³·10939058860032000`
(`P = Q = 1` when `a = 0`) and `T = P·(545140134·a + 13591409)` negated
exactly when `a` is odd; in the recursive case, the midpoint-split
combination of the triplets of `[a, m)` and `[m, b)` with `m = (a+b)/2`. -/
theorem chudnovsky_binarysplit_cases (a b : ℕ) (hab : a < b) :
    (b - a = 1 →
      chudnovsky_binarysplit a b =
        { Pab := if a = 0 then 1 else
            (6 * (a : ℤ) - 5) * (2 * (a : ℤ) - 1) * (6 * (a : ℤ) - 1)
          Qab := if a = 0 then 1 else (a : ℤ) ^ 3 * 10939058860032000
          Tab := (if a % 2 = 1 then -1 else 1) *
            ((if a = 0 then 1 else
                (6 * (a : ℤ) - 5) * (2 * (a : ℤ) - 1) * (6 * (a : ℤ) - 1)) *
              (545140134 * (a : ℤ) + 13591409)) }) ∧
    (1 < b - a →
      chudnovsky_binarysplit a b =
        chudnovsky_combine (chudnovsky_binarysplit a ((a + b) / 2))
          (chudnovsky_binarysplit ((a + b) / 2) b)) := by
  constructor
  · intro h1
    rw [chudnovsky_binarysplit, dif_pos h1]
    simp only [Nat.and_one_is_mod]
    by_cases h0 : a = 0
    · subst h0
      decide
    · by_cases hp : a % 2 = 1 <;>
        simp only [h0, hp, if_true, if_false, if_neg, ite_true, ite_false,
          result_flts.mk.injEq] <;>
        refine ⟨by ring, by ring, by ring⟩
  · intro h2
    rw [chudnovsky_binarysplit, dif_neg (by omega), dif_neg (by omega)]

/-- Witness for C3 at `a = 1`, `b = 3` (the recursive case is inhabited,
`3 - 1 = 2`). -/
theorem chudnovsky_binarysplit_cases_witness :
    (3 - 1 = 1 →
      chudnovsky_binarysplit 1 3 =
        { Pab := if 1 = 0 then 1 else
            (6 * (1 : ℤ) - 5) * (2 * (1 : ℤ) - 1) * (6 * (1 : ℤ) - 1)
          Qab := if 1 = 0 then 1 else (1 : ℤ) ^ 3 * 10939058860032000
          Tab := (if 1 % 2 = 1 then -1 else 1) *
            ((if 1 = 0 then 1 else
                (6 * (1 : ℤ) - 5) * (2 * (1 : ℤ) - 1) * (6 * (1 : ℤ) - 1)) *
              (545140134 * (1 : ℤ) + 13591409)) }) ∧
    (1 < 3 - 1 →
      chudnovsky_binarysplit 1 3 =
        chudnovsky_combine (chudnovsky_binarysplit 1 ((1 + 3) / 2))
          (chudnovsky_binarysplit ((1 + 3) / 2) 3)) :=
  chudnovsky_binarysplit_cases 1 3 (by decide)

/-- C5: the exit status of the binary-splitting program, evaluated at the
failing input `0` (the code accepts it, status `0`, although the claim and
the program's own diagnostic demand rejection), at a negative input
(rejected, status `1`) and at a positive input (accepted, status `0`). -/
theorem chud_exit_status_values :
    chud_exit_status 0 = 0 ∧ chud_exit_status (-1) = 1 ∧ chud_exit_status 7 = 0 := by
  refine ⟨by decide, by decide, by decide⟩

/-- C2 counterexample: at requested digit count `D = 15` the program
evaluates `⌊2·15/14.181647462725477⌋ + 1 = 3` terms, not the claimed
`⌊15/14.181647462725477⌋ + 1 = 2`. -/
theorem chud_terms_count_ne_claimed :
    chud_terms_count 15 = 3 ∧ claimed_terms_count 15 = 2 ∧
      chud_terms_count 15 ≠ claimed_terms_count 15 := by
  have h30 : (⌊((chud_digits 15 : ℤ) : ℚ) / chud_term_divisor⌋ : ℤ) = 2 := by
    rw [Int.floor_eq_iff]
    constructor <;> norm_num [chud_term_divisor, chud_digits]
  have h15 : (⌊((15 : ℤ) : ℚ) / chud_term_divisor⌋ : ℤ) = 1 := by
    rw [Int.floor_eq_iff]
    constructor <;> norm_num [chud_term_divisor]
  refine ⟨?_, ?_, ?_⟩
  · simp only [chud_terms_count, h30]
    decide
  · simp only [claimed_terms_count, h15]
    decide
  · simp only [chud_terms_count, claimed_terms_count, h30, h15]
    decide

/-- C2 amended: for every requested digit count `D > 0` the program evaluates
the range `[0, ⌊2·D/14.181647462725477⌋ + 1)` (the doubled digit count is
divided, not `D` itself) and prints `Q·426880·sqrt(10005·10^(2D)) / T`
truncated, where `(P, Q, T)` is the triplet returned for that range and `s`
abstracts the square root. -/
theorem chud_main_output_amended (n : ℤ) (s : ℚ) (h : 0 < n) :
    chud_terms_count n = (⌊2 * (n : ℚ) / chud_term_divisor⌋).toNat + 1 ∧
    chud_pi_output n s = claimed_pi_output n s := by
  have hcast : ((chud_digits n : ℤ) : ℚ) = 2 * (n : ℚ) := by
    simp only [chud_digits]
    push_cast
    ring
  have hterms : chud_terms_count n = (⌊2 * (n : ℚ) / chud_term_divisor⌋).toNat + 1 := by
    simp only [chud_terms_count, hcast]
  refine ⟨hterms, ?_⟩
  simp only [chud_pi_output, claimed_pi_output, hterms]

/-- Witness for the amended C2 at `D = 1`, `s = 1`. -/
theorem chud_main_output_amended_witness :
    chud_terms_count 1 = (⌊2 * ((1 : ℤ) : ℚ) / chud_term_divisor⌋).toNat + 1 ∧
    chud_pi_output 1 1 = claimed_pi_output 1 1 :=
  chud_main_output_amended 1 1 (by decide)

/-- The combination law is associative. -/
theorem chudnovsky_combine_assoc (x y z : result_flts) :
    chudnovsky_combine (chudnovsky_combine x y) z =
      chudnovsky_combine x (chudnovsky_combine y z) := by
  simp only [chudnovsky_combine]
  rw [result_flts.mk.injEq]
  refine ⟨by ring, by ring, by ring⟩

/-- `⟨1, 1, 0⟩` is a left identity of the combination law. -/
theorem chudnovsky_combine_one_left (x : result_flts) :
    chudnovsky_combine { Pab := 1, Qab := 1, Tab := 0 } x = x := by
  simp only [chudnovsky_combine]
  ext <;> ring

/-- `⟨1, 1, 0⟩` is a right identity of the combination law. -/
theorem chudnovsky_combine_one_right (x : result_flts) :
    chudnovsky_combine x { Pab := 1, Qab := 1, Tab := 0 } = x := by
  simp only [chudnovsky_combine]
  ext <;> ring

/-- Folding from an arbitrary accumulator combines the accumulator with the
fold of the list. -/
theorem chudnovsky_foldl_combine (ts : List result_flts) :
    ∀ x : result_flts,
      ts.foldl chudnovsky_combine x = chudnovsky_combine x (chudnovsky_combineList ts) := by
  induction ts with
  | nil =>
    intro x
    simp only [List.foldl_nil, chudnovsky_combineList]
    rw [chudnovsky_combine_one_right]
  | cons y ts ih =>
    intro x
    have hc : chudnovsky_combineList (y :: ts) =
        chudnovsky_combine y (chudnovsky_combineList ts) := by
      show List.foldl _ (chudnovsky_combine { Pab := 1, Qab := 1, Tab := 0 } y) ts = _
      rw [ih, chudnovsky_combine_one_left]
    rw [List.foldl_cons, ih, hc, chudnovsky_combine_assoc]

/-- Pairwise left-to-right combination splits over list concatenation. -/
theorem chudnovsky_combineList_append (l1 l2 : List result_flts) :
    chudnovsky_combineList (l1 ++ l2) =
      chudnovsky_combine (chudnovsky_combineList l1) (chudnovsky_combineList l2) := by
  simp only [chudnovsky_combineList, List.foldl_append]
  rw [chudnovsky_foldl_combine]
  rfl

/-- `chudnovsky_binarysplit` on `[a, a + n)` equals the left-to-right
combination of the `n` single-term triplets of the range. -/
theorem chudnovsky_eq_combineList_range (n : ℕ) :
    ∀ a : ℕ, 0 < n →
      chudnovsky_binarysplit a (a + n) =
        chudnovsky_combineList ((List.range' a n).map chudnovsky_term) := by
  induction n using Nat.strong_induction_on with
  | _ n ih =>
    intro a hn
    rcases Nat.lt_or_ge n 2 with h2 | h2
    · have hn1 : n = 1 := by omega
      subst hn1
      have hmap : (List.range' a 1).map chudnovsky_term = [chudnovsky_term a] := rfl
      rw [hmap]
      show chudnovsky_binarysplit a (a + 1) =
        chudnovsky_combine { Pab := 1, Qab := 1, Tab := 0 } (chudnovsky_term a)
      rw [chudnovsky_combine_one_left]
      rfl
    · rw [chudnovsky_binarysplit, dif_neg (by omega), dif_neg (by omega)]
      show chudnovsky_combine (chudnovsky_binarysplit a ((a + (a + n)) / 2))
          (chudnovsky_binarysplit ((a + (a + n)) / 2) (a + n)) =
        chudnovsky_combineList ((List.range' a n).map chudnovsky_term)
      obtain ⟨k, hk⟩ : ∃ k, (a + (a + n)) / 2 = a + k :=
        ⟨(a + (a + n)) / 2 - a, by omega⟩
      obtain ⟨l, hl⟩ : ∃ l, a + n = (a + (a + n)) / 2 + l :=
        ⟨a + n - (a + (a + n)) / 2, by omega⟩
      have hkpos : 0 < k := by omega
      have hlpos : 0 < l := by omega
      have hkl : l + k = n := by omega
      rw [hk]
      rw [show a + n = a + k + l from by omega]
      rw [ih k (by omega) a hkpos, ih l (by omega) (a + k) hlpos]
      rw [← chudnovsky_combineList_append, ← List.map_append, List.range'_append_1, hkl]

/-- Splitting any range `[a, b)` at any interior point `m` and combining the
two halves reproduces the triplet of the whole range. -/
theorem chudnovsky_split (a m b : ℕ) (h1 : a < m) (h2 : m < b) :
    chudnovsky_combine (chudnovsky_binarysplit a m) (chudnovsky_binarysplit m b) =
      chudnovsky_binarysplit a b := by
  obtain ⟨k, rfl⟩ : ∃ k, m = a + k := ⟨m - a, by omega⟩
  obtain ⟨l, rfl⟩ : ∃ l, b = a + k + l := ⟨b - (a + k), by omega⟩
  rw [chudnovsky_eq_combineList_range k a (by omega),
    chudnovsky_eq_combineList_range l (a + k) (by omega)]
  rw [← chudnovsky_combineList_append, ← List.map_append, List.range'_append_1]
  rw [show a + k + l = a + (l + k) from by omega]
  rw [chudnovsky_eq_combineList_range (l + k) a (by omega)]

/-- In a strictly increasing list the head is below the last element of the
tail. -/
theorem chain_lt_head_getLast :
    ∀ (l : List ℕ) (y b : ℕ), List.Chain' (· < ·) (y :: l) →
      l.getLast? = some b → y < b := by
  intro l
  induction l with
  | nil =>
    intro y b _ hlast
    simp at hlast
  | cons z l2 ih =>
    intro y b hchain hlast
    have hyz : y < z := (List.chain'_cons.mp hchain).1
    cases l2 with
    | nil =>
      have : z = b := by simpa using hlast
      omega
    | cons w l3 =>
      have hzb : z < b := ih z b (List.chain'_cons.mp hchain).2
        (by simpa [List.getLast?_cons_cons] using hlast)
      omega

/-- C4: for every strictly increasing list of cut points from `a` to `b`,
combining the triplets of the adjacent sub-ranges pairwise left-to-right
yields the same `(P, Q, T)` as the midpoint-split evaluation of `[a, b)`
(so in particular any two decompositions of the same range agree). -/
theorem chudnovsky_decomposition :
    ∀ (cuts : List ℕ) (a b : ℕ), List.Chain' (· < ·) cuts →
      cuts.head? = some a → cuts.getLast? = some b → a < b →
      chudnovsky_combineList (chudnovsky_segments cuts) =
        chudnovsky_binarysplit a b := by
  intro cuts
  induction cuts with
  | nil =>
    intro a b _ hh _ _
    simp at hh
  | cons x rest ih =>
    intro a b hchain hh hlast hab
    have hax : x = a := by simpa using hh
    subst hax
    cases rest with
    | nil =>
      have : x = b := by simpa using hlast
      omega
    | cons y rest2 =>
      have hxy : x < y := (List.chain'_cons.mp hchain).1
      have hchain2 : List.Chain' (· < ·) (y :: rest2) := (List.chain'_cons.mp hchain).2
      have hlast2 : (y :: rest2).getLast? = some b := by
        simpa [List.getLast?_cons_cons] using hlast
      have hseg : chudnovsky_segments (x :: y :: rest2) =
          chudnovsky_binarysplit x y :: chudnovsky_segments (y :: rest2) := rfl
      have hcons : ∀ (t : result_flts) ts,
          chudnovsky_combineList (t :: ts) =
            chudnovsky_combine t (chudnovsky_combineList ts) := by
        intro t ts
        show List.foldl _ (chudnovsky_combine { Pab := 1, Qab := 1, Tab := 0 } t) ts = _
        rw [chudnovsky_foldl_combine, chudnovsky_combine_one_left]
      rw [hseg, hcons]
      cases rest2 with
      | nil =>
        have hyb : y = b := by simpa using hlast2
        subst hyb
        rw [show chudnovsky_segments [y] = [] from rfl]
        show chudnovsky_combine _ { Pab := 1, Qab := 1, Tab := 0 } = _
        rw [chudnovsky_combine_one_right]
      | cons z rest3 =>
        have hyb : y < b := chain_lt_head_getLast (z :: rest3) y b hchain2
          (by simpa [List.getLast?_cons_cons] using hlast2)
        rw [ih y b hchain2 rfl hlast2 hyb]
        exact chudnovsky_split x y b hxy hyb

/-- Witness for C4: decomposing `[0, 4)` into the four singleton ranges. -/
theorem chudnovsky_decomposition_witness :
    chudnovsky_combineList (chudnovsky_segments [0, 1, 2, 3, 4]) =
      chudnovsky_binarysplit 0 4 :=
  chudnovsky_decomposition [0, 1, 2, 3, 4] 0 4
    (by simp [List.chain'_cons]) rfl rfl (by decide)

/-! ## Theorems: pi_infseries.c -/

/-- The do-while loop body runs exactly `terms` times when `terms ≥ 1`. -/
theorem loopTerms_count {σ : Type} (body : σ → σ) :
    ∀ (n : ℕ) (s : σ), 1 ≤ n → (loopTerms body n s).2 = n := by
  intro n
  induction n with
  | zero =>
    intro s h
    omega
  | succ m ih =>
    intro s _
    cases m with
    | zero => rfl
    | succ m2 =>
      show (loopTerms body (m2 + 2) s).2 = m2 + 2
      simp only [loopTerms]
      rw [ih (body s) (by omega)]

/-- C6: each of the five series functions terminates (it is a total function)
and executes its loop body exactly `N` times for every iteration count
`N ≥ 1`. -/
theorem series_loop_counts (N : ℕ) (sqrtFn : ℚ → ℚ) (hN : 1 ≤ N) :
    (wallis_product N).2 = N ∧ (vietes_formula sqrtFn N).2 = N ∧
    (nilakantha N).2 = N ∧ (madhava_leibniz_formula N).2 = N ∧
    (newton_arctan_pi N).2 = N := by
  refine ⟨?_, ?_, ?_, ?_, ?_⟩ <;>
    simp only [wallis_product, vietes_formula, nilakantha,
      madhava_leibniz_formula, newton_arctan_pi] <;>
    exact loopTerms_count _ N _ hN

/-- Witness for C6 at `N = 3` with the identity in place of `sqrt`. -/
theorem series_loop_counts_witness :
    (wallis_product 3).2 = 3 ∧ (vietes_formula id 3).2 = 3 ∧
    (nilakantha 3).2 = 3 ∧ (madhava_leibniz_formula 3).2 = 3 ∧
    (newton_arctan_pi 3).2 = 3 :=
  series_loop_counts 3 id (by decide)

/-- C10: any nonempty first argument whose first character is `'a'` selects
the "all" choice, all five series are run, and the argument is never
rejected; only arguments not starting with `'a'` are treated as a 1-based
index, accepted exactly in `1 .. 5`. -/
theorem infseries_select_spec (arg1 : List Char) (v : ℤ) (hne : arg1 ≠ []) :
    (arg1.head? = some 'a' →
      infseries_select arg1 v = SeriesChoice.all ∧
      series_indices_run (infseries_select arg1 v) = [0, 1, 2, 3, 4]) ∧
    (arg1.head? ≠ some 'a' →
      infseries_select arg1 v =
        if v < 1 ∨ v > 5 then SeriesChoice.invalidOption
        else SeriesChoice.chosen v) := by
  cases arg1 with
  | nil => exact absurd rfl hne
  | cons c cs =>
    constructor
    · intro hh
      have hc : c = 'a' := by simpa using hh
      subst hc
      have hsel : infseries_select ('a' :: cs) v = SeriesChoice.all := by
        simp [infseries_select]
      refine ⟨hsel, ?_⟩
      rw [hsel]
      rfl
    · intro hh
      have hc : ¬(c = 'a') := by simpa using hh
      simp only [infseries_select, List.headD_cons, if_neg hc]
      rw [show ((count_series_functions : ℤ)) = 5 from rfl]

/-- Witness for C10: the argument `"abc"` (with `strtol` value 99, far out of
range) selects "all"; also exercised on the non-`'a'` side via the theorem's
second conjunct being vacuously present. -/
theorem infseries_select_spec_witness :
    ((['a', 'b', 'c'] : List Char).head? = some 'a' →
      infseries_select ['a', 'b', 'c'] 99 = SeriesChoice.all ∧
      series_indices_run (infseries_select ['a', 'b', 'c'] 99) = [0, 1, 2, 3, 4]) ∧
    ((['a', 'b', 'c'] : List Char).head? ≠ some 'a' →
      infseries_select ['a', 'b', 'c'] 99 =
        if (99 : ℤ) < 1 ∨ (99 : ℤ) > 5 then SeriesChoice.invalidOption
        else SeriesChoice.chosen 99) :=
  infseries_select_spec ['a', 'b', 'c'] 99 (by simp)

/-- `decRepr` always produces at least one character. -/
theorem decRepr_ne_nil (n : ℕ) : decRepr n ≠ [] := by
  rw [decRepr]
  split <;> simp

/-- One digit-peeling step of the decimal rendering. -/
theorem decRepr_step (m : ℕ) (h : 10 ≤ m) :
    decRepr m = decRepr (m / 10) ++ [digitChar (m % 10)] := by
  rw [decRepr, dif_neg (by omega)]

/-- A number below `10 ^ (k + 1)` renders in at most `k + 1` characters. -/
theorem decRepr_length_le : ∀ (k : ℕ), ∀ n < 10 ^ (k + 1), (decRepr n).length ≤ k + 1 := by
  intro k
  induction k with
  | zero =>
    intro n hn
    rw [decRepr, dif_pos (by omega)]
    simp
  | succ k ih =>
    intro n hn
    rw [decRepr]
    split
    · simp
    · have hdiv : n / 10 < 10 ^ (k + 1) := by
        rw [Nat.div_lt_iff_lt_mul (by norm_num)]
        calc n < 10 ^ (k + 1 + 1) := hn
          _ = 10 ^ (k + 1) * 10 := by rw [pow_succ]
      have h2 := ih _ hdiv
      simp only [List.length_append, List.length_cons, List.length_nil]
      omega

/-- Peeling the three low decimal digits of a number of at least four digits. -/
theorem decRepr_peel3 (n : ℕ) (hn : 1000 ≤ n) :
    decRepr n = decRepr (n / 1000) ++
      [digitChar (n / 100 % 10), digitChar (n / 10 % 10), digitChar (n % 10)] := by
  rw [decRepr_step n (by omega), decRepr_step (n / 10) (by omega),
    decRepr_step (n / 10 / 10) (by omega)]
  rw [show n / 10 / 10 / 10 = n / 1000 from by omega,
    show n / 10 / 10 % 10 = n / 100 % 10 from by omega]
  simp [List.append_assoc]

/-- A list of at most three characters is left alone. -/
theorem commasEvery3_short (l : List Char) (h : l.length ≤ 3) :
    commasEvery3 l = l := by
  rw [commasEvery3, if_pos h]

/-- With more than three characters, the first three are split off and a
comma inserted. -/
theorem commasEvery3_chunk (d0 d1 d2 : Char) (rest : List Char) (h : rest ≠ []) :
    commasEvery3 (d0 :: d1 :: d2 :: rest) =
      [d0, d1, d2] ++ ',' :: commasEvery3 rest := by
  rw [commasEvery3, if_neg]
  · rfl
  · have := List.length_pos.mpr h
    simp only [List.length_cons]
    omega

/-- The recursive formatter agrees with the spec-side description on every
input: digits grouped in threes from the right, groups separated by commas. -/
theorem print_thousands_eq_grouped :
    ∀ n : ℕ, print_thousands_sepd_num n = grouped_decimal n := by
  intro n
  induction n using Nat.strong_induction_on with
  | _ n ih =>
    by_cases h : 1000 ≤ n
    · rw [print_thousands_sepd_num, dif_pos h, ih (n / 1000) (by omega)]
      rw [grouped_decimal, grouped_decimal, decRepr_peel3 n h]
      rw [List.reverse_append]
      rw [show ([digitChar (n / 100 % 10), digitChar (n / 10 % 10),
          digitChar (n % 10)] : List Char).reverse ++ (decRepr (n / 1000)).reverse =
          digitChar (n % 10) :: digitChar (n / 10 % 10) :: digitChar (n / 100 % 10) ::
            (decRepr (n / 1000)).reverse from rfl]
      rw [commasEvery3_chunk _ _ _ _
        (by simp only [ne_eq, List.reverse_eq_nil_iff]; exact decRepr_ne_nil _)]
      rw [show n % 1000 = n % 1000 from rfl]
      simp only [pad3]
      rw [show n % 1000 / 100 % 10 = n / 100 % 10 from by omega,
        show n % 1000 / 10 % 10 = n / 10 % 10 from by omega,
        show n % 1000 % 10 = n % 10 from by omega]
      simp [List.reverse_append, List.append_assoc]
    · rw [print_thousands_sepd_num, dif_neg h, grouped_decimal, commasEvery3_short]
      · rw [List.reverse_reverse]
      · rw [List.length_reverse]
        exact decRepr_length_le 2 n (by omega)

/-- C7: the thousands-separator formatter on the four sample inputs, and in
general: for every nonnegative integer it emits the decimal digits grouped
in threes from the right, with groups separated by commas. -/
theorem print_thousands_sepd_num_spec :
    String.mk (print_thousands_sepd_num 0) = "0" ∧
    String.mk (print_thousands_sepd_num 999) = "999" ∧
    String.mk (print_thousands_sepd_num 1000) = "1,000" ∧
    String.mk (print_thousands_sepd_num 1234567) = "1,234,567" ∧
    ∀ n : ℕ, print_thousands_sepd_num n = grouped_decimal n := by
  have h0 : print_thousands_sepd_num 0 = [digitChar 0] := by
    rw [print_thousands_sepd_num, dif_neg (by omega), decRepr, dif_pos (by omega)]
  have h1 : print_thousands_sepd_num 1 = [digitChar 1] := by
    rw [print_thousands_sepd_num, dif_neg (by omega), decRepr, dif_pos (by omega)]
  have h999 : print_thousands_sepd_num 999 = decRepr 999 := by
    rw [print_thousands_sepd_num, dif_neg (by omega)]
  have h999v : decRepr 999 = [digitChar 9, digitChar 9, digitChar 9] := by
    rw [decRepr_step 999 (by omega),
      show (999 : ℕ) / 10 = 99 from by norm_num,
      show (999 : ℕ) % 10 = 9 from by norm_num,
      decRepr_step 99 (by omega),
      show (99 : ℕ) / 10 = 9 from by norm_num,
      show (99 : ℕ) % 10 = 9 from by norm_num,
      decRepr, dif_pos (by omega)]
    rfl
  have h1000 : print_thousands_sepd_num 1000 =
      [digitChar 1] ++ ',' :: pad3 0 := by
    rw [print_thousands_sepd_num, dif_pos (by omega),
      show (1000 : ℕ) / 1000 = 1 from by norm_num,
      show (1000 : ℕ) % 1000 = 0 from by norm_num, h1]
  have h1234 : print_thousands_sepd_num 1234 =
      [digitChar 1] ++ ',' :: pad3 234 := by
    rw [print_thousands_sepd_num, dif_pos (by omega),
      show (1234 : ℕ) / 1000 = 1 from by norm_num,
      show (1234 : ℕ) % 1000 = 234 from by norm_num, h1]
  have h1234567 : print_thousands_sepd_num 1234567 =
      ([digitChar 1] ++ ',' :: pad3 234) ++ ',' :: pad3 567 := by
    rw [print_thousands_sepd_num, dif_pos (by omega),
      show (1234567 : ℕ) / 1000 = 1234 from by norm_num,
      show (1234567 : ℕ) % 1000 = 567 from by norm_num, h1234]
  refine ⟨?_, ?_, ?_, ?_, print_thousands_eq_grouped⟩
  · rw [h0]
    decide
  · rw [h999, h999v]
    decide
  · rw [h1000]
    decide
  · rw [h1234567]
    decide

/-! ## Theorems: pi_mcarlo.c -/

/-- C8: the pseudo-random update is deterministic: any two runs of the update
sequence from the same starting seed produce the same sequence of seeds and
the same sequence of masked output values. -/
theorem fastrand_deterministic (s0 : ℕ) (t1 t2 : ℕ → ℕ)
    (h1 : FastrandTrace s0 t1) (h2 : FastrandTrace s0 t2) (n : ℕ) :
    t1 n = t2 n ∧ fastrand_masked (t1 n) = fastrand_masked (t2 n) := by
  have hseed : ∀ m, t1 m = t2 m := by
    intro m
    induction m with
    | zero => rw [h1.1, h2.1]
    | succ k ih => rw [h1.2 k, h2.2 k, ih]
  exact ⟨hseed n, by rw [hseed n]⟩

/-- Witness for C8: two copies of the iterated update from seed 12345,
compared at step 2. -/
theorem fastrand_deterministic_witness :
    (fun n => fastrand_seed_update^[n] 12345) 2 =
      (fun n => fastrand_seed_update^[n] 12345) 2 ∧
    fastrand_masked ((fun n => fastrand_seed_update^[n] 12345) 2) =
      fastrand_masked ((fun n => fastrand_seed_update^[n] 12345) 2) :=
  fastrand_deterministic 12345
    (fun n => fastrand_seed_update^[n] 12345)
    (fun n => fastrand_seed_update^[n] 12345)
    ⟨rfl, fun n => Function.iterate_succ_apply' fastrand_seed_update n 12345⟩
    ⟨rfl, fun n => Function.iterate_succ_apply' fastrand_seed_update n 12345⟩ 2

/-- C9: every iteration of the sampler loop increments exactly one of the two
counters — the interior one when `x² + y² < 1`, else the exterior one — so a
sampler run with budget `N` on a slot holding `(o, i)` leaves counts summing
to `o + i + N`. -/
theorem mcarlo_sampler_counts :
    (∀ (p : ℚ × ℚ) (c : ℕ × ℕ),
      (p.1 * p.1 + p.2 * p.2 < 1 → mcarlo_point_step p c = (c.1, c.2 + 1)) ∧
      (¬(p.1 * p.1 + p.2 * p.2 < 1) → mcarlo_point_step p c = (c.1 + 1, c.2)) ∧
      (mcarlo_point_step p c).1 + (mcarlo_point_step p c).2 = c.1 + c.2 + 1) ∧
    (∀ (pts : ℕ → ℚ × ℚ) (N : ℕ) (c : ℕ × ℕ),
      (approximate_pi_mcarlo pts N c).1 + (approximate_pi_mcarlo pts N c).2 =
        c.1 + c.2 + N) := by
  have hstep : ∀ (p : ℚ × ℚ) (c : ℕ × ℕ),
      (mcarlo_point_step p c).1 + (mcarlo_point_step p c).2 = c.1 + c.2 + 1 := by
    intro p c
    rw [mcarlo_point_step]
    split <;> simp <;> omega
  constructor
  · intro p c
    exact ⟨fun h => by rw [mcarlo_point_step, if_pos h],
      fun h => by rw [mcarlo_point_step, if_neg h], hstep p c⟩
  · intro pts N c
    induction N with
    | zero => simp [approximate_pi_mcarlo]
    | succ k ih =>
      rw [approximate_pi_mcarlo, List.range_succ, List.foldl_append]
      simp only [List.foldl_cons, List.foldl_nil]
      rw [hstep]
      rw [approximate_pi_mcarlo] at ih
      omega

/-- C1, evaluated at the failing input `num_threads = 2`,
`points_per_thread = 1`, with every sampled point at the origin (inside the
quadrant): the compiled program spawns 0 worker threads, not `K - 1 = 1`, and
reports only the main thread's slot `(0 outside, 1 inside)` — one point in
total — where the claimed orchestration would sample every slot and report
`(0, 2)`, two points in total. -/
theorem mcarlo_threading_compiled_out :
    mcarlo_spawned_thread_count 2 = 0 ∧ 2 - 1 = 1 ∧
    mcarlo_main 2 1 (fun _ _ => (0, 0)) = (0, 1) ∧
    mcarlo_main_intended 2 1 (fun _ _ => (0, 0)) = (0, 2) := by
  refine ⟨rfl, rfl, ?_, ?_⟩
  · norm_num [mcarlo_main, approximate_pi_mcarlo, mcarlo_point_step,
      List.range_succ, List.range_zero]
  · norm_num [mcarlo_main_intended, approximate_pi_mcarlo, mcarlo_point_step,
      List.range_succ, List.range_zero]
